/-
  Verification of the performance-dashboard data pipeline.

  Shallow embedding of the core algorithms of the repository:
  * the bounded ingestion buffer (`addData`, src/components/providers/DataProvider.tsx 130-138),
  * the time-bucket aggregator (`aggregateByTimeRange`, DataProvider.tsx 186-236),
  * the bidirectional data/pixel coordinate mapper (`dataToCanvas` / `canvasToData`,
    src/lib/canvasUtils.ts 117-173),
  * the scroll virtualizer (`visibleRange` of `useVirtualization`,
    src/hooks/useVirtualization.ts 90-103),
  * the render-loop tick (`renderLoop` of `useChartRenderer`),
  * the memory-leak heuristic (`MemoryMonitor`, src/lib/performanceUtils.ts 99-151).

  JavaScript numbers are modelled as exact rationals (ℚ) and integer timestamps as ℤ;
  `Array.prototype.sort` with a numeric comparator is modelled by the stable `List.mergeSort`.
-/
import Mathlib

namespace Dashboard

/-- The metadata the aggregator writes on an aggregated point
(DataProvider.tsx 230: `metadata: { aggregated: true, count: values.length }`).
The `metadata` record of `DataPoint` (src/lib/types.ts 21) is an opaque key/value
bag; the only fields the modelled code ever writes or reads are these two, so the
embedding restricts the bag to them (absent bag = `none`). -/
structure AggMetadata where
  aggregated : Bool
  count : Nat
  deriving DecidableEq

/-- `DataPoint` (src/lib/types.ts 17-22): timestamp in integer milliseconds,
real value, category string, optional metadata. -/
structure DataPoint where
  timestamp : Int
  value : Rat
  category : String
  metadata : Option AggMetadata
  deriving DecidableEq

/-- The comparator `(a, b) => a.timestamp - b.timestamp` of DataProvider.tsx 134,
as a Boolean "less or equal" on timestamps. -/
def tsLE (a b : DataPoint) : Bool := a.timestamp ≤ b.timestamp

/-- `addData` (DataProvider.tsx 130-138) generalized over the window capacity:
concatenate the previous contents with the new batch, sort by timestamp
(JavaScript `Array.prototype.sort` is stable, modelled by `List.mergeSort`),
and keep the last `capacity` entries (`combined.slice(-capacity)`). -/
def addDataCap (capacity : Nat) (prev newData : List DataPoint) : List DataPoint :=
  let combined := prev ++ newData
  let sorted := combined.mergeSort tsLE
  sorted.drop (sorted.length - capacity)

/-- `addData` exactly as in DataProvider.tsx 130-138, with the hard-coded
sliding-window capacity of 10000 (`combined.slice(-10000)`). -/
def addData (prev newData : List DataPoint) : List DataPoint :=
  addDataCap 10000 prev newData

/-- A data point carrying only a timestamp, as in the spec scenarios `{t:1}` etc. -/
def mkPt (t : Int) : DataPoint := ⟨t, 0, "a", none⟩

/-! ### Insertion-ordered grouping

The aggregator (DataProvider.tsx 200-233) groups twice with the same idiom: a
JavaScript `Map` built by `if (!m.has(k)) m.set(k, []); m.get(k).push(v)`.
A `Map` iterates in key-insertion order, so it is embedded as an association
list where a new key is appended at the end and a value is pushed onto the
end of its key's list.  `insGroup`/`groupFold` capture the idiom once; the two
grouping passes of the source are its two instantiations below. -/

/-- Push `v` onto the entry of key `k`, appending a fresh entry if `k` is absent. -/
def insGroup {κ β : Type} [DecidableEq κ] (k : κ) (v : β) :
    List (κ × List β) → List (κ × List β)
  | [] => [(k, [v])]
  | (k', vs) :: rest =>
    if k' = k then (k', vs ++ [v]) :: rest else (k', vs) :: insGroup k v rest

/-- Build the insertion-ordered grouping of `l`, keying each element by `keyOf`
and storing `valOf` of it. -/
def groupFold {α κ β : Type} [DecidableEq κ] (keyOf : α → κ) (valOf : α → β)
    (l : List α) : List (κ × List β) :=
  l.foldl (fun m a => insGroup (keyOf a) (valOf a) m) []

/-! ### Bucket aggregator (DataProvider.tsx 186-236) -/

/-- `Math.floor(point.timestamp / bucketSize) * bucketSize` (DataProvider.tsx 204):
`Math.floor` of the real quotient of integers is floor division (`Int.fdiv`). -/
def bucketKey (bucketSize : Int) (t : Int) : Int := t.fdiv bucketSize * bucketSize

/-- The `buckets` map of DataProvider.tsx 201-209: group the points by their
bucket key, in insertion order. -/
def buildBuckets (bucketSize : Int) (points : List DataPoint) :
    List (Int × List DataPoint) :=
  groupFold (fun p => bucketKey bucketSize p.timestamp) (fun p => p) points

/-- The `byCategory` map of DataProvider.tsx 215-221: group the values of a
bucket's points by category, in insertion order. -/
def buildByCategory (points : List DataPoint) : List (String × List Rat) :=
  groupFold (fun p => p.category) (fun p => p.value) points

/-- DataProvider.tsx 224-232: one aggregated point per category of the bucket,
carrying the arithmetic mean and `metadata: { aggregated: true, count }`. -/
def aggregateBucket (timestamp : Int) (points : List DataPoint) : List DataPoint :=
  (buildByCategory points).map fun e =>
    { timestamp := timestamp
      value := e.2.foldl (· + ·) 0 / (e.2.length : Rat)
      category := e.1
      metadata := some { aggregated := true, count := e.2.length } }

/-- The bucketing core of `aggregateByTimeRange` (DataProvider.tsx 200-235) for
an arbitrary bucket width: group into buckets, aggregate each bucket per
category, and sort the result ascending by timestamp (line 235). -/
def aggregateWithBucketSize (bucketSize : Int) (points : List DataPoint) :
    List DataPoint :=
  (((buildBuckets bucketSize points).map fun e => aggregateBucket e.1 e.2).flatten).mergeSort tsLE

/-- `TimeRange` (src/lib/types.ts 61). -/
inductive TimeRange where
  | oneMin
  | fiveMin
  | oneHour
  | all
  deriving DecidableEq

/-- The bucket-size lookup of DataProvider.tsx 192-196: the literal object maps
the three bucketed ranges to a width in milliseconds and yields `undefined`
(here `none`) for any other key. -/
def bucketSizeOf : TimeRange → Option Int
  | TimeRange.oneMin => some 60000
  | TimeRange.fiveMin => some 300000
  | TimeRange.oneHour => some 3600000
  | TimeRange.all => none

/-- `aggregateByTimeRange` (DataProvider.tsx 186-236): identity for `'all'` or
an empty filtered list (lines 187-189), identity when no bucket size is mapped
(line 198), otherwise the bucketing core. -/
def aggregateByTimeRange (timeRange : TimeRange) (filteredData : List DataPoint) :
    List DataPoint :=
  if timeRange = TimeRange.all ∨ filteredData.length = 0 then filteredData
  else
    match bucketSizeOf timeRange with
    | none => filteredData
    | some bucketSize => aggregateWithBucketSize bucketSize filteredData

/-- The metadata count of an aggregated point (`metadata.count`, 0 if absent). -/
def countOf (q : DataPoint) : Nat := (q.metadata.map AggMetadata.count).getD 0

/-! ### Coordinate mapper (src/lib/canvasUtils.ts 117-173) -/

/-- `ChartViewport` (src/lib/types.ts 80-86). -/
structure ChartViewport where
  xMin : Rat
  xMax : Rat
  yMin : Rat
  yMax : Rat
  scale : Rat
  deriving DecidableEq

/-- The padding insets of canvasUtils.ts 123-128. -/
structure Padding where
  top : Rat
  right : Rat
  bottom : Rat
  left : Rat
  deriving DecidableEq

/-- The default padding `{ top: 20, right: 20, bottom: 40, left: 60 }`. -/
def defaultPadding : Padding := ⟨20, 20, 40, 60⟩

/-- `dataToCanvas` (canvasUtils.ts 117-142): normalize into [0,1] over the
viewport, then map linearly into the padded plot rectangle, flipping Y. -/
def dataToCanvas (dataX dataY : Rat) (viewport : ChartViewport)
    (canvasWidth canvasHeight : Rat) (padding : Padding) : Rat × Rat :=
  let plotWidth := canvasWidth - padding.left - padding.right
  let plotHeight := canvasHeight - padding.top - padding.bottom
  let normalizedX := (dataX - viewport.xMin) / (viewport.xMax - viewport.xMin)
  let normalizedY := (dataY - viewport.yMin) / (viewport.yMax - viewport.yMin)
  (padding.left + normalizedX * plotWidth, padding.top + (1 - normalizedY) * plotHeight)

/-- `canvasToData` (canvasUtils.ts 148-173): the mirror-image mapping back to
data space. -/
def canvasToData (canvasX canvasY : Rat) (viewport : ChartViewport)
    (canvasWidth canvasHeight : Rat) (padding : Padding) : Rat × Rat :=
  let plotWidth := canvasWidth - padding.left - padding.right
  let plotHeight := canvasHeight - padding.top - padding.bottom
  let normalizedX := (canvasX - padding.left) / plotWidth
  let normalizedY := 1 - (canvasY - padding.top) / plotHeight
  (viewport.xMin + normalizedX * (viewport.xMax - viewport.xMin),
   viewport.yMin + normalizedY * (viewport.yMax - viewport.yMin))

/-- The spec's error taxonomy names a `ConfigurationError`; no such error (and
no `throw` at all) exists in the mapper or aggregator source. -/
inductive MapperError where
  | configurationError
  deriving DecidableEq

/-- `dataToCanvas` with its exceptional behaviour made explicit: the source
function (canvasUtils.ts 117-142) contains no validation and no `throw`, so its
embedding into `Except` is total and always returns `Except.ok`. -/
def dataToCanvasE (dataX dataY : Rat) (viewport : ChartViewport)
    (canvasWidth canvasHeight : Rat) (padding : Padding) :
    Except MapperError (Rat × Rat) :=
  Except.ok (dataToCanvas dataX dataY viewport canvasWidth canvasHeight padding)

/-- `canvasToData` with its exceptional behaviour made explicit: the source
(canvasUtils.ts 148-173) contains no validation and no `throw`. -/
def canvasToDataE (canvasX canvasY : Rat) (viewport : ChartViewport)
    (canvasWidth canvasHeight : Rat) (padding : Padding) :
    Except MapperError (Rat × Rat) :=
  Except.ok (canvasToData canvasX canvasY viewport canvasWidth canvasHeight padding)

/-- The bucketing core with its exceptional behaviour made explicit: the source
loop (DataProvider.tsx 200-235) contains no width validation and no `throw`. -/
def aggregateWithBucketSizeE (bucketSize : Int) (points : List DataPoint) :
    Except MapperError (List DataPoint) :=
  Except.ok (aggregateWithBucketSize bucketSize points)

/-! ### Scroll virtualizer (src/hooks/useVirtualization.ts 90-103) -/

/-- The `visibleRange` computation of `useVirtualization`:
`startIndex = max(0, floor(scrollTop / itemHeight) - overscan)` and
`endIndex = min(totalItems - 1, ceil((scrollTop + containerHeight) / itemHeight) + overscan)`. -/
def computeRange (scrollTop itemHeight containerHeight : Rat)
    (totalItems overscan : Int) : Int × Int :=
  let startIndex := ⌊scrollTop / itemHeight⌋
  let endIndex := ⌈(scrollTop + containerHeight) / itemHeight⌉
  (max 0 (startIndex - overscan), min (totalItems - 1) (endIndex + overscan))

/-! ### Render loop (useChartRenderer hook, src/unnamed/part_005 103-138)

The three mutable refs of the hook; the canvas context itself is irrelevant to
scheduling, so it is modelled by `Unit`, and a draw callback that may throw is
a function into `Except String Unit`. -/

/-- `canvasContextRef`, `renderFnRef` and `animationFrameRef` of the hook. -/
structure RenderRefs where
  canvasContext : Option Unit
  renderFn : Option (Unit → Except String Unit)
  animationFrame : Option Nat

/-- One invocation of `renderLoop` (part_005 103-111): bail out if the context
or the render function is missing; otherwise call the render function — there
is no `try`/`catch`, so an exception propagates and the subsequent
`requestAnimationFrame` line never runs — and, on normal return, store the new
animation-frame token.  Returns (number of draw-callback invocations,
propagated exception if any, resulting refs). -/
def renderLoopTick (refs : RenderRefs) (newToken : Nat) :
    Nat × Option String × RenderRefs :=
  match refs.canvasContext, refs.renderFn with
  | some c, some f =>
    (match f c with
     | Except.error e => (1, some e, refs)
     | Except.ok _ => (1, none, { refs with animationFrame := some newToken }))
  | _, _ => (0, none, refs)

/-- `startRenderLoop` (part_005 116-127): cancel any pending frame (the old
token is overwritten), store the render function, schedule a new frame. -/
def startRenderLoop (refs : RenderRefs) (renderFn : Unit → Except String Unit)
    (newToken : Nat) : RenderRefs :=
  { refs with renderFn := some renderFn, animationFrame := some newToken }

/-- A refs state whose draw callback always throws, with a stale token 7. -/
def failingTickRefs : RenderRefs :=
  ⟨some (), some (fun _ => Except.error "draw failed"), some 7⟩

/-! ### Memory monitor (src/lib/performanceUtils.ts 99-151) -/

/-- `MemoryMonitor.sample` (performanceUtils.ts 106-114) acting on the sample
list: push the new usage, then `shift()` the oldest if over `maxSamples = 60`. -/
def sampleMemory (samples : List Rat) (usage : Rat) : List Rat :=
  let pushed := samples ++ [usage]
  if pushed.length > 60 then pushed.drop 1 else pushed

/-- `MemoryMonitor.isGrowing` (performanceUtils.ts 136-143): `false` below 10
samples, else whether `samples[length-1] - samples[0]` strictly exceeds the
threshold. -/
def isGrowing (samples : List Rat) (thresholdMB : Rat) : Bool :=
  if samples.length < 10 then false
  else samples.getLastD 0 - samples.headD 0 > thresholdMB

/-- The four scenario points of spec §8: timestamps 0, 500, 999, 1000. -/
def scenarioPoints : List DataPoint := [mkPt 0, mkPt 500, mkPt 999, mkPt 1000]

/-- Invariant tying an insertion-ordered grouping `m` to the processed input `l`:
keys are distinct, every processed element's key is present, each entry holds
exactly the values of the elements with its key in input order, and every key
comes from some processed element. -/
def GroupInv {α κ β : Type} [DecidableEq κ] (keyOf : α → κ) (valOf : α → β)
    (l : List α) (m : List (κ × List β)) : Prop :=
  (m.map Prod.fst).Nodup ∧
  (∀ a ∈ l, keyOf a ∈ m.map Prod.fst) ∧
  (∀ e ∈ m, e.2 = (l.filter fun a => keyOf a = e.1).map valOf) ∧
  (∀ e ∈ m, e.1 ∈ l.map keyOf)

/-! ## Theorems -/

section SortHelpers

/-- The timestamp comparator is transitive. -/
theorem tsLE_trans : ∀ (a b c : DataPoint), tsLE a b → tsLE b c → tsLE a c := by
  intro a b c hab hbc
  simp only [tsLE, decide_eq_true_eq] at *
  omega

/-- The timestamp comparator is total. -/
theorem tsLE_total : ∀ (a b : DataPoint), tsLE a b || tsLE b a := by
  intro a b
  simp only [tsLE, Bool.or_eq_true, decide_eq_true_eq]
  omega

/-- The sorted merge in `addData` is sorted non-decreasing by timestamp. -/
theorem mergeSort_tsLE_sorted (l : List DataPoint) :
    (l.mergeSort tsLE).Sorted fun a b => a.timestamp ≤ b.timestamp := by
  have h := List.sorted_mergeSort tsLE_trans tsLE_total l
  exact h.imp fun hab => by simpa [tsLE] using hab

/-- Any `addDataCap` result is sorted non-decreasing by timestamp. -/
theorem addDataCap_sorted (c : Nat) (prev newData : List DataPoint) :
    (addDataCap c prev newData).Sorted fun a b => a.timestamp ≤ b.timestamp := by
  simp only [addDataCap]
  exact List.Pairwise.sublist (List.drop_sublist _ _) (mergeSort_tsLE_sorted _)

/-- Any `addDataCap` result respects the capacity bound. -/
theorem addDataCap_length_le (c : Nat) (prev newData : List DataPoint) :
    (addDataCap c prev newData).length ≤ c := by
  simp only [addDataCap, List.length_drop]
  omega

end SortHelpers

/-- C2: for every sequence of `addData` calls starting from the empty buffer,
the buffer's length never exceeds the capacity 10000 and the buffer is always
sorted non-decreasing by timestamp. -/
theorem addData_window_invariant (batches : List (List DataPoint)) :
    (batches.foldl addData []).length ≤ 10000 ∧
    (batches.foldl addData []).Sorted fun a b => a.timestamp ≤ b.timestamp := by
  suffices h : ∀ (bs : List (List DataPoint)) (buf : List DataPoint),
      buf.length ≤ 10000 → (buf.Sorted fun a b => a.timestamp ≤ b.timestamp) →
      (bs.foldl addData buf).length ≤ 10000 ∧
      ((bs.foldl addData buf).Sorted fun a b => a.timestamp ≤ b.timestamp) by
    exact h batches [] (by simp) (by simp)
  intro bs
  induction bs with
  | nil => intro buf h1 h2; exact ⟨h1, h2⟩
  | cons batch rest ih =>
    intro buf _ _
    rw [List.foldl_cons]
    exact ih (addData buf batch) (addDataCap_length_le 10000 buf batch)
      (addDataCap_sorted 10000 buf batch)

/-- C5: `addData` into a buffer of capacity `c` yields the chronologically
sorted (stable) merge of the old contents and the batch, truncated to the most
recent `c` entries; ties keep their arrival order, the dropped entries are
exactly an initial segment of the sorted merge, every dropped timestamp is at
most every kept timestamp, and the result keeps `min (total) c` entries.  In particular, with capacity 5,
appending `{t:1},{t:2}` then `{t:3},{t:4},{t:5},{t:6}` leaves exactly
`{t:2,3,4,5,6}` in chronological order. -/
theorem addData_merge_truncate :
    (∀ (c : Nat) (prev batch : List DataPoint),
      ((prev ++ batch).mergeSort tsLE).Perm (prev ++ batch) ∧
      (∀ a b : DataPoint, a.timestamp ≤ b.timestamp →
        [a, b].Sublist (prev ++ batch) →
        [a, b].Sublist ((prev ++ batch).mergeSort tsLE)) ∧
      ((prev ++ batch).mergeSort tsLE).take ((prev.length + batch.length) - c) ++
          addDataCap c prev batch = (prev ++ batch).mergeSort tsLE ∧
      (∀ d ∈ ((prev ++ batch).mergeSort tsLE).take ((prev.length + batch.length) - c),
        ∀ k ∈ addDataCap c prev batch, d.timestamp ≤ k.timestamp) ∧
      ((addDataCap c prev batch).Sorted fun a b => a.timestamp ≤ b.timestamp) ∧
      (addDataCap c prev batch).length = min (prev.length + batch.length) c) ∧
    addDataCap 5 (addDataCap 5 [] [mkPt 1, mkPt 2]) [mkPt 3, mkPt 4, mkPt 5, mkPt 6]
      = [mkPt 2, mkPt 3, mkPt 4, mkPt 5, mkPt 6] := by
  constructor
  · intro c prev batch
    have hlen : ((prev ++ batch).mergeSort tsLE).length = prev.length + batch.length := by
      simp
    refine ⟨List.mergeSort_perm _ _, ?_, ?_, ?_, addDataCap_sorted c prev batch, ?_⟩
    · intro a b hab hsub
      exact List.pair_sublist_mergeSort tsLE_trans tsLE_total
        (by simpa [tsLE] using hab) hsub
    · simp only [addDataCap, hlen]
      exact List.take_append_drop _ _
    · intro d hd k hk
      have hsorted := mergeSort_tsLE_sorted (prev ++ batch)
      rw [← List.take_append_drop ((prev.length + batch.length) - c)
        ((prev ++ batch).mergeSort tsLE)] at hsorted
      have hcross := (List.pairwise_append.mp hsorted).2.2
      simp only [addDataCap, hlen] at hk
      exact hcross d hd k hk
    · simp only [addDataCap, List.length_drop, hlen]
      omega
  · have h1 : addDataCap 5 [] [mkPt 1, mkPt 2] = [mkPt 1, mkPt 2] := by
      simp only [addDataCap]
      rw [List.mergeSort_of_sorted (by decide)]
      rfl
    rw [h1]
    simp only [addDataCap]
    rw [List.mergeSort_of_sorted (by decide)]
    rfl

/-- C10: `aggregateByTimeRange` is the identity for time range `'all'` (and for
any time range not mapped to a bucket width), and the identity whenever the
filtered data is empty. -/
theorem aggregateByTimeRange_identity :
    (∀ d : List DataPoint, aggregateByTimeRange TimeRange.all d = d) ∧
    (∀ tr : TimeRange, bucketSizeOf tr = none →
      ∀ d : List DataPoint, aggregateByTimeRange tr d = d) ∧
    (∀ tr : TimeRange, aggregateByTimeRange tr [] = []) := by
  refine ⟨fun d => by simp [aggregateByTimeRange], fun tr htr d => ?_,
    fun tr => by simp [aggregateByTimeRange]⟩
  cases tr <;> simp_all [bucketSizeOf, aggregateByTimeRange]

/-- Witness for C10 at a concrete input. -/
theorem aggregateByTimeRange_identity_witness :
    aggregateByTimeRange TimeRange.all [mkPt 1] = [mkPt 1] :=
  aggregateByTimeRange_identity.2.1 TimeRange.all rfl [mkPt 1]

/-- C9: `isGrowing` returns true exactly when at least 10 samples exist and the
newest retained sample exceeds the oldest by strictly more than the threshold;
on ten samples `[50,...,50,65]` with threshold 10 it returns true, and with the
last sample 58 instead it returns false. -/
theorem isGrowing_threshold :
    (∀ (samples : List Rat) (t : Rat),
      isGrowing samples t = true ↔
        10 ≤ samples.length ∧ t < samples.getLastD 0 - samples.headD 0) ∧
    isGrowing [50, 50, 50, 50, 50, 50, 50, 50, 50, 65] 10 = true ∧
    isGrowing [50, 50, 50, 50, 50, 50, 50, 50, 50, 58] 10 = false := by
  refine ⟨fun samples t => ?_, ?_, ?_⟩
  · by_cases h : samples.length < 10
    · simp only [isGrowing, if_pos h]
      constructor
      · intro hfalse; cases hfalse
      · intro ⟨h10, _⟩; omega
    · simp [isGrowing, h, Nat.not_lt.mp h]
  · norm_num [isGrowing, List.getLastD]
  · norm_num [isGrowing, List.getLastD]

/-- Counterexample to C8 as stated: the aggregation core called with a
non-positive bucket width does not fail with `ConfigurationError` — the source
contains no width validation and no throw. -/
theorem aggregate_nonpositive_width_no_error :
    aggregateWithBucketSizeE (-1) [mkPt 1] ≠
      Except.error MapperError.configurationError := by
  simp [aggregateWithBucketSizeE]

/-- C8 (amended): the aggregator never raises any error: a call with any bucket
width (including non-positive widths) returns normally, an empty input list
yields an empty result for every width, and `aggregateByTimeRange` on an empty
filtered list returns the empty list for every time range. -/
theorem aggregate_soft_failure :
    (∀ (b : Int) (points : List DataPoint),
      aggregateWithBucketSizeE b points = Except.ok (aggregateWithBucketSize b points)) ∧
    (∀ b : Int, aggregateWithBucketSize b [] = []) ∧
    (∀ tr : TimeRange, aggregateByTimeRange tr [] = []) := by
  refine ⟨fun b points => rfl, fun b => ?_, fun tr => by simp [aggregateByTimeRange]⟩
  simp [aggregateWithBucketSize, buildBuckets, groupFold]

/-- Counterexample to C7 as stated: a call to the coordinate mapper on a
degenerate viewport (`xMax = xMin`) does not fail with `ConfigurationError` —
the source performs no validation and contains no throw. -/
theorem mapper_degenerate_no_error :
    dataToCanvasE 1 2 ⟨5, 5, 0, 10, 1⟩ 800 400 defaultPadding ≠
      Except.error MapperError.configurationError := by
  simp [dataToCanvasE]

/-- C7 (amended): on a degenerate viewport the mapper returns normally — the
division by zero is performed silently (non-finite in JavaScript) and no
`ConfigurationError` is ever raised by `dataToCanvas` or `canvasToData`. -/
theorem mapper_no_configuration_error (dataX dataY : Rat) (vp : ChartViewport)
    (w h : Rat) (pad : Padding) (_hdeg : vp.xMax = vp.xMin ∨ vp.yMax = vp.yMin) :
    dataToCanvasE dataX dataY vp w h pad =
      Except.ok (dataToCanvas dataX dataY vp w h pad) ∧
    canvasToDataE dataX dataY vp w h pad =
      Except.ok (canvasToData dataX dataY vp w h pad) :=
  ⟨rfl, rfl⟩

/-- Witness for C7 (amended) at a concrete degenerate viewport. -/
theorem mapper_no_configuration_error_witness :
    dataToCanvasE 1 2 ⟨5, 5, 0, 10, 1⟩ 800 400 defaultPadding =
      Except.ok (dataToCanvas 1 2 ⟨5, 5, 0, 10, 1⟩ 800 400 defaultPadding) :=
  (mapper_no_configuration_error 1 2 ⟨5, 5, 0, 10, 1⟩ 800 400 defaultPadding
    (Or.inl rfl)).1

/-- Counterexample to C6 as stated: when the draw callback throws, the render
loop does not reschedule the next tick (the stale token 7 remains, the new
token 8 is never stored) and the exception propagates to the caller. -/
theorem renderLoop_throw_halts :
    (renderLoopTick failingTickRefs 8).2.2.animationFrame ≠ some 8 ∧
    (renderLoopTick failingTickRefs 8).2.1 = some "draw failed" := by
  constructor
  · intro h
    simp [renderLoopTick, failingTickRefs] at h
  · rfl

/-- C6 (amended): on every tick with a canvas context and a draw callback
present, the scheduler invokes the callback exactly once; when the callback
returns normally the next tick is rescheduled with the new token, but when it
throws the exception propagates and the next tick is NOT scheduled — a single
drawing failure halts the render loop. -/
theorem renderLoop_tick_behaviour (f : Unit → Except String Unit)
    (af : Option Nat) (tok : Nat) :
    renderLoopTick ⟨some (), some f, af⟩ tok =
      (1, match f () with
          | Except.error e => (some e, (⟨some (), some f, af⟩ : RenderRefs))
          | Except.ok _ => (none, (⟨some (), some f, some tok⟩ : RenderRefs))) := by
  cases h : f () <;> simp [renderLoopTick, h]

/-- C4: mapping a data point to pixel space and back is the identity (exactly,
in the rational-arithmetic model of JavaScript numbers) for every
non-degenerate viewport and positive plot area. -/
theorem mapper_roundtrip (x y : Rat) (vp : ChartViewport) (w h : Rat)
    (pad : Padding) (hx : vp.xMin < vp.xMax) (hy : vp.yMin < vp.yMax)
    (hw : 0 < w - pad.left - pad.right) (hh : 0 < h - pad.top - pad.bottom) :
    canvasToData (dataToCanvas x y vp w h pad).1 (dataToCanvas x y vp w h pad).2
      vp w h pad = (x, y) := by
  have h1 : vp.xMax - vp.xMin ≠ 0 := sub_ne_zero.mpr (ne_of_gt hx)
  have h2 : vp.yMax - vp.yMin ≠ 0 := sub_ne_zero.mpr (ne_of_gt hy)
  have h3 : w - pad.left - pad.right ≠ 0 := ne_of_gt hw
  have h4 : h - pad.top - pad.bottom ≠ 0 := ne_of_gt hh
  simp only [dataToCanvas, canvasToData, Prod.mk.injEq]
  constructor
  · field_simp
    ring
  · field_simp
    ring

/-- Witness for C4 at a concrete viewport, surface and point. -/
theorem mapper_roundtrip_witness :
    canvasToData (dataToCanvas 3 2 ⟨0, 10, 0, 5, 1⟩ 800 400 defaultPadding).1
      (dataToCanvas 3 2 ⟨0, 10, 0, 5, 1⟩ 800 400 defaultPadding).2
      ⟨0, 10, 0, 5, 1⟩ 800 400 defaultPadding = (3, 2) :=
  mapper_roundtrip 3 2 ⟨0, 10, 0, 5, 1⟩ 800 400 defaultPadding
    (by norm_num) (by norm_num) (by norm_num [defaultPadding])
    (by norm_num [defaultPadding])

/-- C3: the virtualizer returns
`startIndex = max(0, floor(scrollOffset/itemExtent) - overscan)` and
`endIndex = min(totalItems-1, ceil((scrollOffset+viewportExtent)/itemExtent) + overscan)`;
consequently every index whose top offset falls in the visible window lies in
the returned range, and the spec scenario yields `(2, 19)`. -/
theorem computeRange_covers :
    (∀ (s e v : Rat) (N o : Int),
      computeRange s e v N o = (max 0 (⌊s / e⌋ - o), min (N - 1) (⌈(s + v) / e⌉ + o))) ∧
    (∀ (s e v : Rat) (N o i : Int), 0 ≤ s → 0 < e → 0 < v → 0 < N → 0 ≤ o →
      0 ≤ i → i < N → s ≤ (i : Rat) * e → (i : Rat) * e < s + v →
      (computeRange s e v N o).1 ≤ i ∧ i ≤ (computeRange s e v N o).2) ∧
    computeRange 205 40 400 1000 3 = (2, 19) := by
  refine ⟨fun s e v N o => rfl, ?_, ?_⟩
  · intro s e v N o i _hs he _hv _hN ho hi hiN h1 h2
    simp only [computeRange]
    constructor
    · apply max_le hi
      have hfl : ⌊s / e⌋ ≤ i := by
        have hdiv : s / e ≤ (i : Rat) := (div_le_iff₀ he).mpr h1
        calc ⌊s / e⌋ ≤ ⌊(i : Rat)⌋ := Int.floor_le_floor hdiv
          _ = i := Int.floor_intCast i
      omega
    · apply le_min (by omega)
      have hdiv : (i : Rat) < (s + v) / e := (lt_div_iff₀ he).mpr h2
      have hceil : (i : Rat) ≤ (⌈(s + v) / e⌉ : Rat) := le_trans hdiv.le (Int.le_ceil _)
      have : i ≤ ⌈(s + v) / e⌉ := by exact_mod_cast hceil
      omega
  · have h1 : ⌊(205 : Rat) / 40⌋ = 5 := by
      rw [Int.floor_eq_iff]
      norm_num
    have h2 : ⌈((205 : Rat) + 400) / 40⌉ = 16 := by
      rw [Int.ceil_eq_iff]
      norm_num
    simp [computeRange, h1, h2]

/-- Witness for C3: index 6 (top offset 240) is visible for the scenario
parameters and falls inside the returned range. -/
theorem computeRange_covers_witness :
    (computeRange 205 40 400 1000 3).1 ≤ 6 ∧ 6 ≤ (computeRange 205 40 400 1000 3).2 :=
  computeRange_covers.2.1 205 40 400 1000 3 6 (by norm_num) (by norm_num)
    (by norm_num) (by norm_num) (by norm_num) (by norm_num) (by norm_num)
    (by norm_num) (by norm_num)

section GroupFoldLemmas

variable {α κ β : Type} [DecidableEq κ]

/-- The key list of `insGroup`: unchanged if the key is present, otherwise the
new key is appended at the end. -/
theorem keys_insGroup (k : κ) (v : β) (m : List (κ × List β)) :
    (insGroup k v m).map Prod.fst =
      if k ∈ m.map Prod.fst then m.map Prod.fst else m.map Prod.fst ++ [k] := by
  induction m with
  | nil => simp [insGroup]
  | cons e rest ih =>
    obtain ⟨k', vs⟩ := e
    by_cases hk : k' = k
    · subst hk
      simp [insGroup]
    · simp only [insGroup, if_neg hk, List.map_cons, ih]
      have hkk : ¬k = k' := fun h => hk h.symm
      by_cases hm : k ∈ rest.map Prod.fst
      · simp [hm, List.mem_cons, hkk]
      · simp [hm, List.mem_cons, hkk]

/-- `insGroup` adds exactly one value to the grouping. -/
theorem sumLen_insGroup (k : κ) (v : β) (m : List (κ × List β)) :
    ((insGroup k v m).map fun e => e.2.length).sum =
      ((m.map fun e => e.2.length).sum) + 1 := by
  induction m with
  | nil => simp [insGroup]
  | cons e rest ih =>
    obtain ⟨k', vs⟩ := e
    by_cases hk : k' = k
    · subst hk
      simp [insGroup]
      omega
    · simp [insGroup, hk, ih]
      omega

/-- Membership in `insGroup`: an entry either existed before with a different
key, or carries the inserted key and is either the freshly created singleton or
the previous entry with the value pushed. -/
theorem mem_insGroup {k : κ} {v : β} :
    ∀ {m : List (κ × List β)}, (m.map Prod.fst).Nodup →
    ∀ {e : κ × List β}, e ∈ insGroup k v m →
      (e.1 ≠ k ∧ e ∈ m) ∨
      (e.1 = k ∧ ((k ∉ m.map Prod.fst ∧ e.2 = [v]) ∨
        ∃ vs, (k, vs) ∈ m ∧ e.2 = vs ++ [v])) := by
  intro m
  induction m with
  | nil =>
    intro _ e he
    simp only [insGroup, List.mem_singleton] at he
    subst he
    exact Or.inr ⟨rfl, Or.inl ⟨by simp, rfl⟩⟩
  | cons hd rest ih =>
    intro hnd e he
    obtain ⟨k', vs⟩ := hd
    rw [List.map_cons, List.nodup_cons] at hnd
    by_cases hk : k' = k
    · subst hk
      have hrw : insGroup k' v ((k', vs) :: rest) = (k', vs ++ [v]) :: rest := by
        simp [insGroup]
      rw [hrw, List.mem_cons] at he
      rcases he with he | he
      · subst he
        exact Or.inr ⟨rfl, Or.inr ⟨vs, List.mem_cons_self _ _, rfl⟩⟩
      · have h1 : e.1 ∈ rest.map Prod.fst := List.mem_map_of_mem Prod.fst he
        exact Or.inl ⟨fun h => hnd.1 (h ▸ h1), List.mem_cons_of_mem _ he⟩
    · have hrw : insGroup k v ((k', vs) :: rest) = (k', vs) :: insGroup k v rest := by
        simp [insGroup, hk]
      rw [hrw, List.mem_cons] at he
      rcases he with he | he
      · subst he
        exact Or.inl ⟨hk, List.mem_cons_self _ _⟩
      · rcases ih hnd.2 he with ⟨hne, hmem⟩ | ⟨heq, hcase⟩
        · exact Or.inl ⟨hne, List.mem_cons_of_mem _ hmem⟩
        · refine Or.inr ⟨heq, ?_⟩
          rcases hcase with ⟨hnotin, he2⟩ | ⟨vs', hmem, he2⟩
          · refine Or.inl ⟨?_, he2⟩
            simp only [List.map_cons, List.mem_cons]
            exact fun h => h.elim (fun h => hk h.symm) hnotin
          · exact Or.inr ⟨vs', List.mem_cons_of_mem _ hmem, he2⟩

/-- One step of the grouping fold preserves the invariant, the processed input
growing by the inserted element. -/
theorem groupInv_step (keyOf : α → κ) (valOf : α → β) (l : List α) (a : α)
    (m : List (κ × List β)) (h : GroupInv keyOf valOf l m) :
    GroupInv keyOf valOf (l ++ [a]) (insGroup (keyOf a) (valOf a) m) := by
  obtain ⟨hnd, hcomp, hcont, hkeys⟩ := h
  refine ⟨?_, ?_, ?_, ?_⟩
  · by_cases hmem : keyOf a ∈ m.map Prod.fst
    · rw [keys_insGroup, if_pos hmem]
      exact hnd
    · rw [keys_insGroup, if_neg hmem]
      simp [List.nodup_append, hnd, hmem]
  · intro b hb
    rcases List.mem_append.mp hb with hb | hb
    · have hbk := hcomp b hb
      by_cases hmem : keyOf a ∈ m.map Prod.fst <;>
        rw [keys_insGroup] <;> simp [hmem, hbk]
    · have hb' : b = a := by simpa using hb
      subst hb'
      by_cases hmem : keyOf b ∈ m.map Prod.fst <;>
        rw [keys_insGroup] <;> simp [hmem]
  · intro e he
    rcases mem_insGroup hnd he with ⟨hne, hmem⟩ | ⟨heq, hcase⟩
    · have hfa : (List.filter (fun x => decide (keyOf x = e.1)) [a]) = [] := by
        simp only [List.filter_eq_nil_iff]
        intro b hb
        have hb' : b = a := by simpa using hb
        subst hb'
        simp only [decide_eq_true_eq]
        exact fun h => hne h.symm
      rw [List.filter_append, hfa, List.append_nil]
      exact hcont e hmem
    · rcases hcase with ⟨hnotin, he2⟩ | ⟨vs, hmem, he2⟩
      · have hl : (l.filter fun x => decide (keyOf x = e.1)) = [] := by
          simp only [List.filter_eq_nil_iff]
          intro b hb
          simp only [decide_eq_true_eq]
          intro hkb
          exact hnotin (heq ▸ hkb ▸ hcomp b hb)
        rw [List.filter_append, hl, List.nil_append, he2]
        simp [heq]
      · have hvs := hcont (keyOf a, vs) hmem
        rw [he2, List.filter_append]
        simp only [heq] at *
        rw [hvs]
        simp
  · intro e he
    rcases mem_insGroup hnd he with ⟨_, hmem⟩ | ⟨heq, _⟩
    · have := hkeys e hmem
      simp only [List.map_append, List.mem_append]
      exact Or.inl this
    · simp [heq]

/-- The grouping fold carries the invariant over any suffix of the input. -/
theorem groupInv_foldl (keyOf : α → κ) (valOf : α → β) :
    ∀ (l pre : List α) (m : List (κ × List β)),
      GroupInv keyOf valOf pre m →
      GroupInv keyOf valOf (pre ++ l)
        (l.foldl (fun m a => insGroup (keyOf a) (valOf a) m) m)
  | [], _, _, h => by simpa using h
  | a :: t, pre, m, h => by
    have h' := groupInv_step keyOf valOf pre a m h
    have hrec := groupInv_foldl keyOf valOf t (pre ++ [a]) _ h'
    rw [List.append_assoc] at hrec
    simpa using hrec

/-- The full grouping invariant for `groupFold`. -/
theorem groupFold_inv (keyOf : α → κ) (valOf : α → β) (l : List α) :
    GroupInv keyOf valOf l (groupFold keyOf valOf l) := by
  have h0 : GroupInv keyOf valOf [] ([] : List (κ × List β)) :=
    ⟨by simp, by simp, by simp, by simp⟩
  simpa [groupFold] using groupInv_foldl keyOf valOf l [] [] h0

/-- The grouped value lists of `groupFold` hold exactly as many values as the
input has elements. -/
theorem sumLen_groupFold (keyOf : α → κ) (valOf : α → β) (l : List α) :
    ((groupFold keyOf valOf l).map fun e => e.2.length).sum = l.length := by
  suffices h : ∀ (t : List α) (m : List (κ × List β)),
      ((t.foldl (fun m a => insGroup (keyOf a) (valOf a) m) m).map
        fun e => e.2.length).sum = ((m.map fun e => e.2.length).sum) + t.length by
    simpa [groupFold] using h l []
  intro t
  induction t with
  | nil => intro m; simp
  | cons a t ih =>
    intro m
    rw [List.foldl_cons, ih, sumLen_insGroup, List.length_cons]
    omega

end GroupFoldLemmas

section AggregatorLemmas

/-- Every member of the aggregation output arises from a bucket entry and a
category entry within it. -/
theorem mem_aggregate_elim {bw : Int} {points : List DataPoint} {q : DataPoint}
    (hq : q ∈ aggregateWithBucketSize bw points) :
    ∃ e ∈ buildBuckets bw points, ∃ ce ∈ buildByCategory e.2,
      q = ⟨e.1, ce.2.foldl (· + ·) 0 / (ce.2.length : Rat), ce.1,
        some ⟨true, ce.2.length⟩⟩ := by
  simp only [aggregateWithBucketSize, List.mem_mergeSort, List.mem_flatten,
    List.mem_map] at hq
  obtain ⟨L, ⟨e, he, rfl⟩, hqL⟩ := hq
  simp only [aggregateBucket, List.mem_map] at hqL
  obtain ⟨ce, hce, rfl⟩ := hqL
  exact ⟨e, he, ce, hce, rfl⟩

/-- A bucket entry holds exactly the input points with its key, in order. -/
theorem buildBuckets_content {bw : Int} {points : List DataPoint}
    {e : Int × List DataPoint} (he : e ∈ buildBuckets bw points) :
    e.2 = points.filter fun p => bucketKey bw p.timestamp = e.1 := by
  have h := (groupFold_inv (fun p : DataPoint => bucketKey bw p.timestamp)
    (fun p => p) points).2.2.1 e (by simpa [buildBuckets] using he)
  simpa using h

/-- A category entry holds exactly the values of the bucket's points with its
category, in order. -/
theorem buildByCategory_content {ps : List DataPoint} {ce : String × List Rat}
    (hce : ce ∈ buildByCategory ps) :
    ce.2 = (ps.filter fun p => p.category = ce.1).map fun p => p.value :=
  (groupFold_inv (fun p : DataPoint => p.category) (fun p : DataPoint => p.value)
    ps).2.2.1 ce (by simpa [buildByCategory] using hce)

/-- Every point emitted for a bucket carries that bucket's key as timestamp. -/
theorem ts_of_mem_aggregateBucket {k : Int} {ps : List DataPoint} {q : DataPoint}
    (h : q ∈ aggregateBucket k ps) : q.timestamp = k := by
  simp only [aggregateBucket, List.mem_map] at h
  obtain ⟨ce, _, rfl⟩ := h
  rfl

/-- Count correctness: each emitted point's metadata count equals the number of
input points matching its bucket key and category. -/
theorem agg_count_correct (bw : Int) (points : List DataPoint) :
    ∀ q ∈ aggregateWithBucketSize bw points,
      q.metadata = some ⟨true, (points.filter fun p =>
        bucketKey bw p.timestamp = q.timestamp ∧ p.category = q.category).length⟩ := by
  intro q hq
  obtain ⟨e, he, ce, hce, rfl⟩ := mem_aggregate_elim hq
  have h1 := buildBuckets_content he
  have h2 := buildByCategory_content hce
  have hlen : ce.2.length = (points.filter fun p =>
      bucketKey bw p.timestamp = e.1 ∧ p.category = ce.1).length := by
    rw [h2, List.length_map, h1, List.filter_filter]
    have hpred : ∀ a ∈ points,
        (decide (a.category = ce.1) && decide (bucketKey bw a.timestamp = e.1))
          = decide (bucketKey bw a.timestamp = e.1 ∧ a.category = ce.1) := by
      intro a _
      simp [Bool.decide_and, Bool.and_comm]
    rw [List.filter_congr hpred]
  simp only [hlen]

/-- Partition, half 1: the counts of the emitted points sum to the number of
input points — no point is dropped and none is counted twice. -/
theorem agg_countOf_sum (bw : Int) (points : List DataPoint) :
    ((aggregateWithBucketSize bw points).map countOf).sum = points.length := by
  have hperm : ((aggregateWithBucketSize bw points).map countOf).Perm
      ((((buildBuckets bw points).map fun e =>
        aggregateBucket e.1 e.2).flatten).map countOf) :=
    (List.mergeSort_perm _ _).map countOf
  rw [hperm.sum_eq, List.map_flatten, List.map_map, List.sum_flatten, List.map_map]
  have hinner : ∀ e : Int × List DataPoint,
      ((aggregateBucket e.1 e.2).map countOf).sum = e.2.length := by
    intro e
    have hmap : ((aggregateBucket e.1 e.2).map countOf)
        = (buildByCategory e.2).map fun ce => ce.2.length := by
      simp [aggregateBucket, List.map_map, countOf, Function.comp]
    rw [hmap]
    exact sumLen_groupFold (fun p : DataPoint => p.category)
      (fun p : DataPoint => p.value) e.2
  simp only [Function.comp_def]
  simp only [hinner]
  exact sumLen_groupFold (fun p : DataPoint => bucketKey bw p.timestamp)
    (fun p => p) points

/-- Partition, half 2: the emitted (bucket key, category) pairs are pairwise
distinct. -/
theorem agg_pairwise (bw : Int) (points : List DataPoint) :
    (aggregateWithBucketSize bw points).Pairwise fun q₁ q₂ =>
      ¬(q₁.timestamp = q₂.timestamp ∧ q₁.category = q₂.category) := by
  have hS : ∀ {x y : DataPoint},
      ¬(x.timestamp = y.timestamp ∧ x.category = y.category) →
      ¬(y.timestamp = x.timestamp ∧ y.category = x.category) :=
    fun h hc => h ⟨hc.1.symm, hc.2.symm⟩
  refine (List.Perm.pairwise_iff hS (List.mergeSort_perm _ _)).mpr ?_
  rw [List.pairwise_flatten]
  constructor
  · intro L hL
    obtain ⟨e, he, rfl⟩ := List.mem_map.mp hL
    have hnd : ((buildByCategory e.2).map Prod.fst).Nodup :=
      (groupFold_inv (fun p : DataPoint => p.category)
        (fun p : DataPoint => p.value) e.2).1
    have hpw : (buildByCategory e.2).Pairwise fun c₁ c₂ => c₁.1 ≠ c₂.1 :=
      List.pairwise_map.mp hnd
    rw [aggregateBucket, List.pairwise_map]
    exact hpw.imp fun hne hc => hne hc.2
  · rw [List.pairwise_map]
    have hnd : ((buildBuckets bw points).map Prod.fst).Nodup :=
      (groupFold_inv (fun p : DataPoint => bucketKey bw p.timestamp)
        (fun p => p) points).1
    have hpw : (buildBuckets bw points).Pairwise fun e₁ e₂ => e₁.1 ≠ e₂.1 :=
      List.pairwise_map.mp hnd
    refine hpw.imp ?_
    intro e₁ e₂ hne q₁ hq₁ q₂ hq₂ hc
    apply hne
    rw [← ts_of_mem_aggregateBucket hq₁, ← ts_of_mem_aggregateBucket hq₂]
    exact hc.1

/-- Completeness: every input point is represented by an emitted point with its
bucket key and category. -/
theorem agg_complete (bw : Int) (points : List DataPoint) :
    ∀ p ∈ points, ∃ q ∈ aggregateWithBucketSize bw points,
      q.timestamp = bucketKey bw p.timestamp ∧ q.category = p.category := by
  intro p hp
  obtain ⟨_, hcomp1, hcont1, _⟩ := groupFold_inv
    (fun p : DataPoint => bucketKey bw p.timestamp) (fun p => p) points
  obtain ⟨e, he, hek⟩ := List.mem_map.mp (hcomp1 p hp)
  have hpe : p ∈ e.2 := by
    rw [hcont1 e he]
    simp [List.mem_filter, hp, hek]
  obtain ⟨_, hcomp2, _, _⟩ := groupFold_inv
    (fun p : DataPoint => p.category) (fun p : DataPoint => p.value) e.2
  obtain ⟨ce, hce, hcec⟩ := List.mem_map.mp (hcomp2 p hpe)
  refine ⟨⟨e.1, ce.2.foldl (· + ·) 0 / (ce.2.length : Rat), ce.1,
    some ⟨true, ce.2.length⟩⟩, ?_, hek, hcec⟩
  simp only [aggregateWithBucketSize, List.mem_mergeSort, List.mem_flatten]
  refine ⟨aggregateBucket e.1 e.2,
    List.mem_map_of_mem _ (by simpa [buildBuckets] using he), ?_⟩
  simp only [aggregateBucket, List.mem_map]
  exact ⟨ce, hce, rfl⟩

/-- Spec §8 scenario: bucket width 1000 on timestamps 0, 500, 999, 1000 gives
two buckets, key 0 with count 3 and key 1000 with count 1. -/
theorem agg_scenario : aggregateWithBucketSize 1000 scenarioPoints =
    [⟨0, 0, "a", some ⟨true, 3⟩⟩, ⟨1000, 0, "a", some ⟨true, 1⟩⟩] := by
  have hflat : (((buildBuckets 1000 scenarioPoints).map fun e =>
      aggregateBucket e.1 e.2).flatten)
      = [⟨0, 0, "a", some ⟨true, 3⟩⟩, ⟨1000, 0, "a", some ⟨true, 1⟩⟩] := by
    norm_num [scenarioPoints, buildBuckets, groupFold, insGroup, mkPt, bucketKey,
      aggregateBucket, buildByCategory, Int.fdiv]
  simp only [aggregateWithBucketSize]
  rw [hflat, List.mergeSort_of_sorted (by decide)]

end AggregatorLemmas

/-- C1: for every bucket width `b > 0`, the aggregator groups points by
`floor(timestamp/b)*b` and category: every emitted point's metadata count
equals the number of matching input points, the counts sum to the input length,
the emitted (key, category) pairs are distinct, every input point is
represented, and the spec scenario at width 1000 yields exactly the buckets
(0, count 3) and (1000, count 1). -/
theorem aggregate_counts_partition (bw : Int) (points : List DataPoint)
    (_hb : 0 < bw) :
    (∀ q ∈ aggregateWithBucketSize bw points,
      q.metadata = some ⟨true, (points.filter fun p =>
        bucketKey bw p.timestamp = q.timestamp ∧ p.category = q.category).length⟩) ∧
    ((aggregateWithBucketSize bw points).map countOf).sum = points.length ∧
    ((aggregateWithBucketSize bw points).Pairwise fun q₁ q₂ =>
      ¬(q₁.timestamp = q₂.timestamp ∧ q₁.category = q₂.category)) ∧
    (∀ p ∈ points, ∃ q ∈ aggregateWithBucketSize bw points,
      q.timestamp = bucketKey bw p.timestamp ∧ q.category = p.category) ∧
    aggregateWithBucketSize 1000 scenarioPoints =
      [⟨0, 0, "a", some ⟨true, 3⟩⟩, ⟨1000, 0, "a", some ⟨true, 1⟩⟩] :=
  ⟨agg_count_correct bw points, agg_countOf_sum bw points, agg_pairwise bw points,
    agg_complete bw points, agg_scenario⟩

/-- Witness for C1 at width 1000 on the scenario points. -/
theorem aggregate_counts_partition_witness :
    ((aggregateWithBucketSize 1000 scenarioPoints).map countOf).sum
      = scenarioPoints.length :=
  (aggregate_counts_partition 1000 scenarioPoints (by norm_num)).2.1

end Dashboard
